import Mathlib

/-!
Verification of the chunk-identity, deduplication and retrieval-assembly
subsystem of a document-ingestion / retrieval-augmented-query pipeline
(`server/ingest.py` and `server/query_data.py`).

The Python code is shallowly embedded:

* a chunk's dynamic metadata dict becomes a record of optional fields;
* the external collaborators (network fetch + HTML parse, the SHA-256
  function, the text splitter, the language model, the vector store's
  upsert) become explicit function parameters or explicit store states;
* fallible operations return `Option`.
-/

namespace Gov

/-- The metadata mapping attached to a document or chunk.  In the Python
code this is a dict with optional keys; absent keys are modelled by
`none`.  (`page` is a non-negative integer: PDF page numbers from the
loader, or the literal 0 for web documents.) -/
structure Metadata where
  source : Option String := none
  page : Option Nat := none
  id : Option String := none
  sha256 : Option String := none
  source_type : Option String := none
  title : Option String := none
deriving DecidableEq, Repr

/-- A chunk produced by the splitter: text content plus metadata.
(Documents before splitting have the same shape; the splitter collaborator
maps documents to chunks preserving/extending metadata.) -/
structure Chunk where
  page_content : String
  metadata : Metadata
deriving DecidableEq, Repr

/-- A document prior to splitting (same shape as a chunk). -/
structure Document where
  page_content : String
  metadata : Metadata
deriving DecidableEq, Repr

/-- `current_page_id = f"{source}:{page}"` of `calculate_chunk_ids`:
`source` defaults to `""` and `page` defaults to `0` when the key is
absent (`chunk.metadata.get("source", "")`, `chunk.metadata.get("page", 0)`). -/
def pageKeyOf (c : Chunk) : String :=
  (c.metadata.source.getD "") ++ ":" ++ toString (c.metadata.page.getD 0)

/-- The loop body of `calculate_chunk_ids`, with the mutable Python state
`(last_page_id, current_chunk_index)` threaded explicitly.  `sha` is the
external SHA-256 collaborator (`hashlib.sha256(...).hexdigest()`).
Initially `last_page_id = None` and `current_chunk_index = 0`. -/
def calcIdsAux (sha : String → String) :
    Option String → Nat → List Chunk → List Chunk
  | _, _, [] => []
  | last_page_id, current_chunk_index, c :: rest =>
    let current_page_id := pageKeyOf c
    let newIndex :=
      if some current_page_id = last_page_id then current_chunk_index + 1 else 0
    let c' : Chunk :=
      { c with metadata :=
          { c.metadata with
              id := some (current_page_id ++ ":" ++ toString newIndex)
              sha256 := some (sha c.page_content) } }
    c' :: calcIdsAux sha (some current_page_id) newIndex rest

/-- `calculate_chunk_ids(chunks)` from `ingest.py`: one stateful pass
assigning `id = f"{current_page_id}:{current_chunk_index}"` and the
dedup hash `sha256` to every chunk, in order. -/
def calculate_chunk_ids (sha : String → String) (chunks : List Chunk) : List Chunk :=
  calcIdsAux sha none 0 chunks

/-- The assigned ids of a chunk list, in order. -/
def idsOf (chunks : List Chunk) : List (Option String) :=
  chunks.map (fun c => c.metadata.id)

/-- Modelled from the spec's wording of the Chunk Identifier algorithm
(§4.2): maintain a last-composite-key cursor over the sequence of page
keys; if the key equals the previous one increment a running index, else
reset it to 0; emit `pageKey + ":" + index`.  Used to compare the code's
`calculate_chunk_ids` against the spec's description. -/
def specAssignIds : Option String → Nat → List String → List String
  | _, _, [] => []
  | last, idx, k :: ks =>
    let newIdx := if some k = last then idx + 1 else 0
    (k ++ ":" ++ toString newIdx) :: specAssignIds (some k) newIdx ks

/-- Same stateful pass as `specAssignIds`, but returning the raw
`(pageKey, index)` pairs before they are glued into id strings. -/
def assignPairs : Option String → Nat → List String → List (String × Nat)
  | _, _, [] => []
  | last, idx, k :: ks =>
    let newIdx := if some k = last then idx + 1 else 0
    (k, newIdx) :: assignPairs (some k) newIdx ks

/-- Glue a `(pageKey, index)` pair into an id string, as the code does. -/
def pairId (p : String × Nat) : String :=
  p.1 ++ ":" ++ toString p.2

/-- A concrete 3-chunk single-document batch: source `a.pdf`, page 0. -/
def threeChunks : List Chunk :=
  [ { page_content := "t0", metadata := { source := some "a.pdf", page := some 0 } },
    { page_content := "t1", metadata := { source := some "a.pdf", page := some 0 } },
    { page_content := "t2", metadata := { source := some "a.pdf", page := some 0 } } ]

/-- A batch whose page keys repeat non-contiguously (sources `a`, `b`,
`a`, all on page 0), as produced e.g. by a websites file listing the
same URL twice around a different one. -/
def abaChunks : List Chunk :=
  [ { page_content := "x", metadata := { source := some "a", page := some 0 } },
    { page_content := "y", metadata := { source := some "b", page := some 0 } },
    { page_content := "z", metadata := { source := some "a", page := some 0 } } ]

/-- The concatenation of key runs: each `(k, c)` contributes `c` copies
of key `k`.  A key list is "contiguous" when it decomposes into runs
with pairwise-distinct keys. -/
def runsJoin (runs : List (String × Nat)) : List String :=
  (runs.map (fun r => List.replicate r.2 r.1)).flatten

/-- The `(pageKey, index)` pairs the identifier assigns to a run
decomposition: run `(k, c)` contributes `(k, 0), …, (k, c-1)`. -/
def runsPairs (runs : List (String × Nat)) : List (String × Nat) :=
  (runs.map (fun r => (List.range r.2).map (fun j => (r.1, j)))).flatten

/-- Page keys with equal values appear contiguously: the key sequence
decomposes into nonempty runs with pairwise-distinct keys.  This holds
for every batch in which no `(source, page)` pair recurs after an
intervening different pair. -/
def ContiguousKeys (l : List String) : Prop :=
  ∃ runs : List (String × Nat),
    l = runsJoin runs ∧ (runs.map Prod.fst).Nodup ∧ ∀ r ∈ runs, 0 < r.2

/-! ### Store model and the synchronizer (`add_to_chroma`) -/

/-- One persisted row of the vector store: primary key `id`, the stored
document text, and its metadata (the embedding vector is opaque to every
property verified here and is omitted). -/
structure StoreEntry where
  id : String
  page_content : String
  metadata : Metadata
deriving DecidableEq, Repr

/-- The persisted store's visible state: its rows in insertion order. -/
abbrev Store := List StoreEntry

/-- The `existing_hashes` set built by `add_to_chroma` from the persisted
metadata: every truthy `sha256` value found in a metadata row (Python
skips falsy rows and falsy hash values, hence the empty-string guard). -/
def existingHashes (db : Store) : List String :=
  db.filterMap (fun e =>
    match e.metadata.sha256 with
    | some h => if h = "" then none else some h
    | none => none)

/-- The filter of `add_to_chroma`'s list comprehension:
`c.metadata.get("sha256") not in existing_hashes`.  A chunk with no
`sha256` key compares `None` against a set of strings and is therefore
always "new". -/
def isNewChunk (existing : List String) (c : Chunk) : Bool :=
  match c.metadata.sha256 with
  | some h => !existing.contains h
  | none => true

/-- `new_chunks = [c for c in chunks if c.metadata.get("sha256") not in
existing_hashes]`. -/
def newChunksOf (existing : List String) (chunks : List Chunk) : List Chunk :=
  chunks.filter (isNewChunk existing)

/-- The store row written for a chunk under a given primary key. -/
def entryOfChunk (i : String) (c : Chunk) : StoreEntry :=
  { id := i, page_content := c.page_content, metadata := c.metadata }

/-- Modelled from the spec: §6 declares the vector-store collaborator's
`addDocuments(chunks, ids)` operation as "upsert by id" (its
implementation lives in the external `langchain_chroma` library, not in
this repository).  A row whose id already exists is replaced in place;
otherwise the row is appended. -/
def upsertEntry (db : Store) (e : StoreEntry) : Store :=
  if db.any (fun x => x.id = e.id) then
    db.map (fun x => if x.id = e.id then e else x)
  else db ++ [e]

/-- Modelled from the spec: `db.add_documents(new_chunks, ids=new_ids)`
upserts each chunk under its positional id, in order. -/
def addDocuments (db : Store) (chunks : List Chunk) (ids : List String) : Store :=
  (chunks.zip ids).foldl (fun d p => upsertEntry d (entryOfChunk p.2 p.1)) db

/-- `add_to_chroma(chunks)` from `ingest.py`, with the store handle made
explicit: build the persisted hash set, filter the batch down to chunks
whose hash is absent, and either report a no-op (`(db, 0)`) or upsert
exactly the new subset keyed by `c.metadata["id"]` (a missing id key
raises `KeyError` in Python, modelled as `none`).  The returned count is
the reported number of newly added documents. -/
def add_to_chroma (db : Store) (chunks : List Chunk) : Option (Store × Nat) :=
  let existing := existingHashes db
  let new := newChunksOf existing chunks
  if new.isEmpty then some (db, 0)
  else
    match new.mapM (fun c => c.metadata.id) with
    | none => none
    | some new_ids => some (addDocuments db new new_ids, new.length)

/-- A SHA-256 stand-in used for concrete evaluations: prefixes the text
with `h`, so it is injective and never returns the empty string. -/
def shaW : String → String := fun s => String.mk ('h' :: s.data)

/-- A store holding one row whose hash is `hx`. -/
def c3db : Store :=
  [ { id := "a.pdf:0:0", page_content := "p",
      metadata := { sha256 := some "hx" } } ]

/-- A chunk whose hash `hx` is already persisted in `c3db`. -/
def c3c1 : Chunk :=
  { page_content := "x",
    metadata := { id := some "i1", sha256 := some "hx" } }

/-- A chunk whose hash `hy` is absent from `c3db`. -/
def c3c2 : Chunk :=
  { page_content := "y",
    metadata := { id := some "i2", sha256 := some "hy" } }

/-- The store after a first ingestion of `threeChunks` (hashed with
`shaW`) into an empty store. -/
def c4db1 : Store :=
  [ { id := "a.pdf:0:0", page_content := "t0",
      metadata := { source := some "a.pdf", page := some 0,
                    id := some "a.pdf:0:0", sha256 := some "ht0" } },
    { id := "a.pdf:0:1", page_content := "t1",
      metadata := { source := some "a.pdf", page := some 0,
                    id := some "a.pdf:0:1", sha256 := some "ht1" } },
    { id := "a.pdf:0:2", page_content := "t2",
      metadata := { source := some "a.pdf", page := some 0,
                    id := some "a.pdf:0:2", sha256 := some "ht2" } } ]

/-- A 2-chunk document (contents `X` then `Y`, source `a.pdf`, page 0):
the current version of a document whose earlier version had content `X`
at position 1. -/
def c4cexDocPair : List Chunk :=
  [ { page_content := "X", metadata := { source := some "a.pdf", page := some 0 } },
    { page_content := "Y", metadata := { source := some "a.pdf", page := some 0 } } ]

/-- A store persisting the earlier version's row: id `a.pdf:0:1` with
content `X` (hash `hX`). -/
def c4cexDb : Store :=
  [ { id := "a.pdf:0:1", page_content := "X",
      metadata := { sha256 := some "hX" } } ]

/-- `c4cexDb` after the first re-ingestion of `c4cexDocPair`: the upsert
of the new chunk at id `a.pdf:0:1` replaced the only row carrying hash
`hX`. -/
def c4cexDb1 : Store :=
  [ { id := "a.pdf:0:1", page_content := "Y",
      metadata := { source := some "a.pdf", page := some 0,
                    id := some "a.pdf:0:1", sha256 := some "hY" } } ]

/-- A store holding one row with id `u:0:0` and content `X` (hash `hX`). -/
def c5db : Store :=
  [ { id := "u:0:0", page_content := "X",
      metadata := { sha256 := some "hX" } } ]

/-- A changed chunk: different content/hash, but the same id `u:0:0` as
the row persisted in `c5db`. -/
def c5chunk : Chunk :=
  { page_content := "Y",
    metadata := { id := some "u:0:0", sha256 := some "hY" } }

/-- A concrete fetch collaborator: URL `bad` raises, every other URL
succeeds with text derived from the URL. -/
def fetchW : String → Except String (String × String) :=
  fun url =>
    if url = "bad" then Except.error "boom"
    else Except.ok ("content of " ++ url, "title of " ++ url)

/-! ### Scraping, the websites file, and ingestion -/

/-- `scrape_website(url)` from `ingest.py`.  The whole fetch-and-parse
body (`polite_get` + BeautifulSoup cleaning, title fallback to the URL
host) is an external collaborator modelled as `fetch`; an exception
anywhere in it is `Except.error`, which the function's `try/except`
converts to `("", url)`: empty text with the URL standing in for the
title. -/
def scrape_website (fetch : String → Except String (String × String))
    (url : String) : String × String :=
  match fetch url with
  | Except.ok r => r
  | Except.error _ => ("", url)

/-- `build_web_documents(websites)` from `ingest.py`: scrape each URL in
order, skip any whose text is empty (falsy), and wrap the rest as web
documents with `source=url`, `source_type="web"`, the scraped title, and
`page=0`. -/
def build_web_documents (fetch : String → Except String (String × String))
    (websites : List String) : List Document :=
  websites.filterMap (fun url =>
    let r := scrape_website fetch url
    if r.1 = "" then none
    else some { page_content := r.1,
                metadata := { source := some url, source_type := some "web",
                              title := some r.2, page := some 0 } })

/-- Python `str.strip()`: drop leading and trailing whitespace. -/
def pyStrip (s : String) : String :=
  String.mk (((s.data.dropWhile Char.isWhitespace).reverse.dropWhile
    Char.isWhitespace).reverse)

/-- Python `line.startswith("#")`. -/
def beginsWithHash (s : String) : Bool :=
  match s.data with
  | [] => false
  | c :: _ => c = '#'

/-- `read_websites(path)` from `ingest.py`.  The filesystem is modelled
explicitly: `none` is a path for which `os.path.exists` is false (the
function returns `[]`), `some ls` is the file's list of lines.  Kept
lines are those whose stripped form is non-empty (truthy) and which do
not start with `#`; each kept line is returned stripped, in file
order. -/
def read_websites (file : Option (List String)) : List String :=
  match file with
  | none => []
  | some ls =>
    (ls.filter (fun line => !(pyStrip line).data.isEmpty && !beginsWithHash line)).map
      pyStrip

/-- The document-gathering phase of `ingest(...)`: PDFs from the loader
collaborator, then web documents — built only when the websites list is
truthy (`build_web_documents(websites) if websites else []`). -/
def ingestDocs (pdf_docs : List Document)
    (fetch : String → Except String (String × String))
    (websites_file : Option (List String)) : List Document :=
  let websites := read_websites websites_file
  let web_docs := if websites.isEmpty then [] else build_web_documents fetch websites
  pdf_docs ++ web_docs

/-- `ingest(...)` from `ingest.py` (reset branch omitted): gather
documents, return a no-op on an empty document list, otherwise split
(the splitter is the external `RecursiveCharacterTextSplitter`
collaborator), assign ids and hashes, and synchronize with the store. -/
def ingest (splitter : List Document → List Chunk) (sha : String → String)
    (fetch : String → Except String (String × String))
    (db : Store) (pdf_docs : List Document)
    (websites_file : Option (List String)) : Option (Store × Nat) :=
  let all_docs := ingestDocs pdf_docs fetch websites_file
  if all_docs.isEmpty then some (db, 0)
  else add_to_chroma db (calculate_chunk_ids sha (splitter all_docs))

/-! ### Query path (`query_data.py`) -/

/-- `os.path.basename` (POSIX): the portion of the path after the last
slash. -/
def basename (s : String) : String :=
  String.mk (s.data.foldl (fun acc c => if c = '/' then [] else acc ++ [c]) [])

/-- `PROMPT_TEMPLATE` rendered over a concrete context and question: the
fixed surrounding text of `query_data.py` with the two slots
substituted. -/
def promptTemplateFormat (context question : String) : String :=
  "\nAnswer the question based only on the following context:\n\n\n" ++ context ++
    "\n\n\n---\n\n\nAnswer the question based on the above context: " ++ question ++ "\n"

/-- `query_rag(query_text)` from `query_data.py`, with the retrieval
results and the language model made explicit: `results` is what
`db.similarity_search_with_score(query_text, k=5)` returned (scores of
an opaque type `σ` — they are carried but never used), `model` is the
LLM collaborator returning the answer text for a prompt.  Joins the
retrieved contents with the `\n\n---\n\n` separator, renders the fixed
template, invokes the model, and pairs the answer with the per-result
source basenames (`doc.metadata.get("source", "")`). -/
def query_rag {σ : Type} (model : String → String)
    (results : List (Chunk × σ)) (query_text : String) : String × List String :=
  let context_text :=
    String.intercalate "\n\n---\n\n" (results.map (fun r => r.1.page_content))
  let prompt := promptTemplateFormat context_text query_text
  let answer := model prompt
  let sources := results.map (fun r => basename (r.1.metadata.source.getD ""))
  (answer, sources)

end Gov

namespace Gov

theorem calcIdsAux_ids (sha : String → String) :
    ∀ (chunks : List Chunk) (last : Option String) (idx : Nat),
      idsOf (calcIdsAux sha last idx chunks) =
        (specAssignIds last idx (chunks.map pageKeyOf)).map some
  | [], _, _ => rfl
  | c :: rest, last, idx => by
    simp only [calcIdsAux, specAssignIds, idsOf, List.map_cons, List.cons.injEq]
    refine ⟨trivial, ?_⟩
    have := calcIdsAux_ids sha rest (some (pageKeyOf c))
      (if some (pageKeyOf c) = last then idx + 1 else 0)
    simpa [idsOf] using this

/-- C1: `calculate_chunk_ids` assigns ids by the single stateful pass the
spec describes (pageKey cursor, increment on equal key, reset to 0 on
change, id = pageKey ++ ":" ++ index, page defaulting to 0 when absent),
and on a single 3-chunk document with source `a.pdf`, page 0 the ids are
`a.pdf:0:0`, `a.pdf:0:1`, `a.pdf:0:2`. -/
theorem C1_chunk_id_assignment (sha : String → String) (chunks : List Chunk) :
    idsOf (calculate_chunk_ids sha chunks) =
      (specAssignIds none 0 (chunks.map pageKeyOf)).map some ∧
    (∀ c : Chunk, c.metadata.page = none →
      pageKeyOf c =
        pageKeyOf { c with metadata := { c.metadata with page := some 0 } }) ∧
    idsOf (calculate_chunk_ids sha threeChunks) =
      [some "a.pdf:0:0", some "a.pdf:0:1", some "a.pdf:0:2"] := by
  refine ⟨calcIdsAux_ids sha chunks none 0, ?_, ?_⟩
  · intro c h
    simp [pageKeyOf, h]
  · rw [show calculate_chunk_ids sha threeChunks = calcIdsAux sha none 0 threeChunks from rfl,
      calcIdsAux_ids]
    decide

/-! ### Decimal numerals: injectivity and absence of `':'`

`Nat.repr` (hence `toString` on `Nat`) is injective and never emits a
colon; both facts are needed to show that distinct `(pageKey, index)`
pairs yield distinct id strings. -/

theorem toDigitsCore_shift (f : Nat) : ∀ (n : Nat) (ds : List Char),
    Nat.toDigitsCore 10 f n ds = Nat.toDigitsCore 10 f n [] ++ ds := by
  induction f with
  | zero => intro n ds; simp [Nat.toDigitsCore]
  | succ f ih =>
    intro n ds
    simp only [Nat.toDigitsCore]
    by_cases h : n / 10 = 0
    · simp [h]
    · simp only [if_neg h]
      rw [ih (n / 10) (Nat.digitChar (n % 10) :: ds),
        ih (n / 10) [Nat.digitChar (n % 10)]]
      simp

theorem toDigitsCore_fuel : ∀ (n f1 f2 : Nat), n < f1 → n < f2 →
    Nat.toDigitsCore 10 f1 n [] = Nat.toDigitsCore 10 f2 n [] := by
  intro n
  induction n using Nat.strong_induction_on with
  | _ n ih =>
    intro f1 f2 h1 h2
    match f1, f2 with
    | g1 + 1, g2 + 1 =>
      simp only [Nat.toDigitsCore]
      by_cases h : n / 10 = 0
      · simp [h]
      · simp only [if_neg h]
        rw [toDigitsCore_shift, toDigitsCore_shift g2]
        have hn : 0 < n := by
          rcases Nat.eq_zero_or_pos n with h0 | h0
          · exact absurd (by simp [h0]) h
          · exact h0
        have hdiv : n / 10 < n := Nat.div_lt_self hn (by norm_num)
        rw [ih (n / 10) hdiv (g1) (g2) (by omega) (by omega)]

theorem toDigits_of_lt (n : Nat) (h : n < 10) :
    Nat.toDigits 10 n = [Nat.digitChar n] := by
  simp only [Nat.toDigits, Nat.toDigitsCore]
  rw [if_pos (Nat.div_eq_of_lt h), Nat.mod_eq_of_lt h]

theorem toDigits_of_ge (n : Nat) (h : 10 ≤ n) :
    Nat.toDigits 10 n = Nat.toDigits 10 (n / 10) ++ [Nat.digitChar (n % 10)] := by
  have hdiv0 : n / 10 ≠ 0 := by omega
  simp only [Nat.toDigits, Nat.toDigitsCore]
  rw [if_neg hdiv0, toDigitsCore_shift]
  congr 1
  exact toDigitsCore_fuel (n / 10) n (n / 10 + 1)
    (Nat.div_lt_self (by omega) (by norm_num)) (Nat.lt_succ_self _)

theorem toDigits_ne_nil (n : Nat) : Nat.toDigits 10 n ≠ [] := by
  by_cases h : n < 10
  · rw [toDigits_of_lt n h]; simp
  · rw [toDigits_of_ge n (by omega)]; simp

theorem digitChar_inj_lt : ∀ a < 10, ∀ b < 10,
    Nat.digitChar a = Nat.digitChar b → a = b := by decide

theorem digitChar_ne_colon : ∀ m < 10, Nat.digitChar m ≠ ':' := by decide

theorem toDigits_ne_colon : ∀ (n : Nat), ':' ∉ Nat.toDigits 10 n := by
  intro n
  induction n using Nat.strong_induction_on with
  | _ n ih =>
    by_cases h : n < 10
    · rw [toDigits_of_lt n h]
      simp only [List.mem_singleton]
      exact fun hc => digitChar_ne_colon n h hc.symm
    · rw [toDigits_of_ge n (by omega)]
      simp only [List.mem_append, List.mem_singleton]
      rintro (hc | hc)
      · exact ih (n / 10) (Nat.div_lt_self (by omega) (by norm_num)) hc
      · exact digitChar_ne_colon (n % 10) (Nat.mod_lt n (by norm_num)) hc.symm

theorem toDigits_inj : ∀ (m n : Nat),
    Nat.toDigits 10 m = Nat.toDigits 10 n → m = n := by
  intro m
  induction m using Nat.strong_induction_on with
  | _ m ih =>
    intro n heq
    by_cases hm : m < 10 <;> by_cases hn : n < 10
    · rw [toDigits_of_lt m hm, toDigits_of_lt n hn] at heq
      exact digitChar_inj_lt m hm n hn (List.singleton_injective heq)
    · rw [toDigits_of_lt m hm, toDigits_of_ge n (by omega)] at heq
      have hlen := congrArg List.length heq
      simp only [List.length_append, List.length_cons, List.length_nil] at hlen
      have : (Nat.toDigits 10 (n / 10)).length = 0 := by omega
      exact absurd (List.length_eq_zero.mp this) (toDigits_ne_nil (n / 10))
    · rw [toDigits_of_ge m (by omega), toDigits_of_lt n hn] at heq
      have hlen := congrArg List.length heq
      simp only [List.length_append, List.length_cons, List.length_nil] at hlen
      have : (Nat.toDigits 10 (m / 10)).length = 0 := by omega
      exact absurd (List.length_eq_zero.mp this) (toDigits_ne_nil (m / 10))
    · rw [toDigits_of_ge m (by omega), toDigits_of_ge n (by omega)] at heq
      have hrev := congrArg List.reverse heq
      simp only [List.reverse_append, List.reverse_singleton, List.singleton_append,
        List.cons.injEq, List.reverse_inj] at hrev
      have hd : m % 10 = n % 10 :=
        digitChar_inj_lt (m % 10) (Nat.mod_lt m (by norm_num)) (n % 10)
          (Nat.mod_lt n (by norm_num)) hrev.1
      have hq : m / 10 = n / 10 :=
        ih (m / 10) (Nat.div_lt_self (by omega) (by norm_num)) (n / 10) hrev.2
      have := Nat.div_add_mod m 10
      have := Nat.div_add_mod n 10
      omega

theorem nat_repr_inj {m n : Nat} (h : Nat.repr m = Nat.repr n) : m = n := by
  apply toDigits_inj
  have := congrArg String.data h
  simpa [Nat.repr, List.asString] using this

theorem repr_ne_colon (n : Nat) : ':' ∉ (Nat.repr n).data := by
  simpa [Nat.repr, List.asString] using toDigits_ne_colon n

theorem colon_split : ∀ (w1 x1 w2 x2 : List Char), ':' ∉ w1 → ':' ∉ w2 →
    w1 ++ ':' :: x1 = w2 ++ ':' :: x2 → w1 = w2 ∧ x1 = x2 := by
  intro w1
  induction w1 with
  | nil =>
    intro x1 w2 x2 _ hw2 heq
    cases w2 with
    | nil => simpa using heq
    | cons b w2' =>
      simp only [List.nil_append, List.cons_append, List.cons.injEq] at heq
      exact absurd (heq.1 ▸ List.mem_cons_self b w2') (by simp [heq.1] at hw2 ⊢; tauto)
  | cons a w1' ih =>
    intro x1 w2 x2 hw1 hw2 heq
    cases w2 with
    | nil =>
      simp only [List.nil_append, List.cons_append, List.cons.injEq] at heq
      exact absurd (List.mem_cons_self a w1') (by simp [← heq.1] at hw1 ⊢; tauto)
    | cons b w2' =>
      simp only [List.cons_append, List.cons.injEq] at heq
      obtain ⟨hab, hrest⟩ := heq
      have := ih x1 w2' x2 (fun hc => hw1 (List.mem_cons_of_mem a hc))
        (fun hc => hw2 (List.mem_cons_of_mem b hc)) hrest
      exact ⟨by rw [hab, this.1], this.2⟩

theorem string_colon_glue_inj (s1 t1 s2 t2 : String)
    (h1 : ':' ∉ t1.data) (h2 : ':' ∉ t2.data)
    (heq : s1 ++ ":" ++ t1 = s2 ++ ":" ++ t2) : s1 = s2 ∧ t1 = t2 := by
  have hd := congrArg String.data heq
  simp only [String.data_append] at hd
  have hd' : s1.data ++ ':' :: t1.data = s2.data ++ ':' :: t2.data := by
    simpa using hd
  have hrev := congrArg List.reverse hd'
  simp only [List.reverse_append, List.reverse_cons] at hrev
  have hrev' : t1.data.reverse ++ ':' :: s1.data.reverse =
      t2.data.reverse ++ ':' :: s2.data.reverse := by
    simpa [List.append_assoc] using hrev
  have := colon_split _ _ _ _ (by simpa using h1) (by simpa using h2) hrev'
  refine ⟨String.ext ?_, String.ext ?_⟩
  · have := this.2
    simpa [List.reverse_inj] using this
  · have := this.1
    simpa [List.reverse_inj] using this

theorem pairId_injective : Function.Injective pairId := by
  intro p q h
  have : toString p.2 = Nat.repr p.2 := rfl
  have hsplit := string_colon_glue_inj p.1 (toString p.2) q.1 (toString q.2)
    (repr_ne_colon p.2) (repr_ne_colon q.2) h
  have h2 : p.2 = q.2 := nat_repr_inj hsplit.2
  exact Prod.ext hsplit.1 h2

/-! ### The identifier pass over contiguous key runs -/

theorem specAssignIds_eq_pairs :
    ∀ (ks : List String) (last : Option String) (idx : Nat),
      specAssignIds last idx ks = (assignPairs last idx ks).map pairId
  | [], _, _ => rfl
  | k :: ks, last, idx => by
    simp only [specAssignIds, assignPairs, List.map_cons, pairId, List.cons.injEq]
    exact ⟨trivial, specAssignIds_eq_pairs ks _ _⟩

theorem assignPairs_replicate_cont (k : String) :
    ∀ (c idx : Nat) (rest : List String),
      assignPairs (some k) idx (List.replicate c k ++ rest) =
        ((List.range c).map (fun j => (k, idx + 1 + j))) ++
          assignPairs (some k) (idx + c) rest := by
  intro c
  induction c with
  | zero => intro idx rest; simp
  | succ c ih =>
    intro idx rest
    rw [List.replicate_succ, List.cons_append]
    show (k, if some k = some k then idx + 1 else 0) ::
        assignPairs (some k) (if some k = some k then idx + 1 else 0)
          (List.replicate c k ++ rest) = _
    rw [if_pos rfl, ih (idx + 1) rest, List.range_succ_eq_map]
    simp only [List.map_cons, List.map_map, List.cons_append, List.cons.injEq]
    refine ⟨by simp, ?_⟩
    congr 2
    · funext j
      simp only [Function.comp_apply]
      congr 1
      omega
    · omega

theorem assignPairs_replicate_fresh (k : String) (c : Nat) (hc : 0 < c)
    (last : Option String) (hlast : last ≠ some k) (idx : Nat)
    (rest : List String) :
    assignPairs last idx (List.replicate c k ++ rest) =
      ((List.range c).map (fun j => (k, j))) ++
        assignPairs (some k) (c - 1) rest := by
  obtain ⟨c', rfl⟩ : ∃ c', c = c' + 1 := ⟨c - 1, by omega⟩
  rw [List.replicate_succ, List.cons_append]
  show (k, if some k = last then idx + 1 else 0) ::
      assignPairs (some k) (if some k = last then idx + 1 else 0)
        (List.replicate c' k ++ rest) = _
  rw [if_neg (fun h => hlast h.symm), assignPairs_replicate_cont k c' 0 rest,
    List.range_succ_eq_map]
  simp only [List.map_cons, List.map_map, List.cons_append, List.cons.injEq,
    Nat.add_sub_cancel]
  refine ⟨trivial, ?_⟩
  congr 2
  · funext j
    simp only [Function.comp_apply]
    congr 1
    omega
  · omega

theorem assignPairs_runs :
    ∀ (runs : List (String × Nat)) (last : Option String) (idx : Nat),
      (∀ r ∈ runs, 0 < r.2) → (runs.map Prod.fst).Nodup →
      (∀ r ∈ runs, last ≠ some r.1) →
      assignPairs last idx (runsJoin runs) = runsPairs runs := by
  intro runs
  induction runs with
  | nil => intro last idx _ _ _; rfl
  | cons r rest ih =>
    intro last idx hpos hnodup hlast
    obtain ⟨k, c⟩ := r
    have hjoin : runsJoin ((k, c) :: rest) = List.replicate c k ++ runsJoin rest := by
      simp [runsJoin]
    rw [hjoin, assignPairs_replicate_fresh k c (hpos (k, c) (List.mem_cons_self _ _))
      last (hlast (k, c) (List.mem_cons_self _ _)) idx (runsJoin rest)]
    rw [List.map_cons, List.nodup_cons] at hnodup
    rw [ih (some k) (c - 1) (fun r hr => hpos r (List.mem_cons_of_mem _ hr))
      hnodup.2
      (fun r hr h => hnodup.1 (by
        simp only [List.mem_map]
        exact ⟨r, hr, (Option.some_injective _ h).symm⟩))]
    simp [runsPairs]

theorem runsPairs_fst :
    ∀ (runs : List (String × Nat)) (p : String × Nat),
      p ∈ runsPairs runs → p.1 ∈ runs.map Prod.fst := by
  intro runs
  induction runs with
  | nil => intro p hp; simp [runsPairs] at hp
  | cons r rest ih =>
    intro p hp
    simp only [runsPairs, List.map_cons, List.flatten_cons, List.mem_append] at hp
    rcases hp with hp | hp
    · obtain ⟨j, _, rfl⟩ := List.mem_map.mp hp
      simp
    · simp only [List.map_cons, List.mem_cons]
      exact Or.inr (ih p (by simpa [runsPairs] using hp))

theorem runsPairs_nodup :
    ∀ (runs : List (String × Nat)), (runs.map Prod.fst).Nodup →
      (runsPairs runs).Nodup := by
  intro runs
  induction runs with
  | nil => intro _; simp [runsPairs]
  | cons r rest ih =>
    intro hnodup
    obtain ⟨k, c⟩ := r
    have hsplit : runsPairs ((k, c) :: rest) =
        ((List.range c).map (fun j => (k, j))) ++ runsPairs rest := by
      simp [runsPairs]
    rw [hsplit, List.nodup_append]
    rw [List.map_cons, List.nodup_cons] at hnodup
    refine ⟨?_, ih hnodup.2, ?_⟩
    · exact (List.nodup_range c).map (fun a b hab => by simpa using hab)
    · intro p hp hp'
      obtain ⟨j, _, rfl⟩ := List.mem_map.mp hp
      exact hnodup.1 (runsPairs_fst rest (k, j) hp')

theorem calcIdsAux_pageKeys (sha : String → String) :
    ∀ (chunks : List Chunk) (last : Option String) (idx : Nat),
      (calcIdsAux sha last idx chunks).map pageKeyOf = chunks.map pageKeyOf
  | [], _, _ => rfl
  | c :: rest, last, idx => by
    simp only [calcIdsAux, List.map_cons, List.cons.injEq]
    exact ⟨by simp [pageKeyOf], calcIdsAux_pageKeys sha rest _ _⟩

/-- C2, counterexample: on the batch with sources `a`, `b`, `a` (all page
0) — as arises from a websites file listing URL `a`, then `b`, then `a`
again — `calculate_chunk_ids` resets the index on every key change, so
the first and third chunk both receive id `a:0:0`: the assigned ids are
not pairwise distinct within the batch. -/
theorem C2_counterexample_duplicate_ids :
    idsOf (calculate_chunk_ids (fun s => s) abaChunks) =
      [some "a:0:0", some "b:0:0", some "a:0:0"] ∧
    ¬ (idsOf (calculate_chunk_ids (fun s => s) abaChunks)).Nodup := by
  constructor
  · decide
  · decide

/-- C2, amended: when chunks sharing a page key are contiguous in the
batch (the key sequence decomposes into runs with pairwise-distinct
keys), the assigned ids are pairwise distinct; and re-running the
assignment on its own output reproduces the same ids (the pass is
deterministic and idempotent). -/
theorem C2_ids_nodup_of_contiguous (sha : String → String) (chunks : List Chunk)
    (h : ContiguousKeys (chunks.map pageKeyOf)) :
    (idsOf (calculate_chunk_ids sha chunks)).Nodup ∧
    idsOf (calculate_chunk_ids sha (calculate_chunk_ids sha chunks)) =
      idsOf (calculate_chunk_ids sha chunks) := by
  obtain ⟨runs, hjoin, hnodup, hpos⟩ := h
  have hids : ∀ l : List Chunk, idsOf (calculate_chunk_ids sha l) =
      (specAssignIds none 0 (l.map pageKeyOf)).map some := fun l =>
    calcIdsAux_ids sha l none 0
  constructor
  · rw [hids]
    apply List.Nodup.map (Option.some_injective _)
    rw [specAssignIds_eq_pairs, hjoin,
      assignPairs_runs runs none 0 hpos hnodup (by simp)]
    exact List.Nodup.map pairId_injective (runsPairs_nodup runs hnodup)
  · rw [hids, hids, show calculate_chunk_ids sha chunks =
      calcIdsAux sha none 0 chunks from rfl, calcIdsAux_pageKeys]

/-- Witness for `C2_ids_nodup_of_contiguous` at the concrete 3-chunk
batch (a single run of the key `a.pdf:0`). -/
theorem C2_ids_nodup_witness :
    ContiguousKeys (threeChunks.map pageKeyOf) ∧
    ((idsOf (calculate_chunk_ids (fun s => s) threeChunks)).Nodup ∧
     idsOf (calculate_chunk_ids (fun s => s)
        (calculate_chunk_ids (fun s => s) threeChunks)) =
       idsOf (calculate_chunk_ids (fun s => s) threeChunks)) := by
  have hc : ContiguousKeys (threeChunks.map pageKeyOf) :=
    ⟨[("a.pdf:0", 3)], by decide, by decide, by decide⟩
  exact ⟨hc, C2_ids_nodup_of_contiguous (fun s => s) threeChunks hc⟩

/-! ### The synchronizer: hash-based deduplication -/

theorem mapM_id_eq_some (l : List Chunk)
    (h : ∀ c ∈ l, (c.metadata.id).isSome = true) :
    l.mapM (fun c => c.metadata.id) =
      some (l.map (fun c => (c.metadata.id).getD "")) := by
  induction l with
  | nil => rfl
  | cons c rest ih =>
    have hc := h c (List.mem_cons_self _ _)
    obtain ⟨i, hi⟩ := Option.isSome_iff_exists.mp hc
    rw [List.mapM_cons, hi, ih (fun x hx => h x (List.mem_cons_of_mem _ hx))]
    simp [hi]

/-- C3: a chunk of the batch is classified as new exactly when its
`sha256` is absent from the hash set read out of the persisted store's
metadata, and `add_to_chroma` either no-ops (empty new subset) or passes
exactly the new subset to the store insert, keyed by the chunks' ids. -/
theorem C3_hash_dedup_policy (db : Store) (chunks : List Chunk) (c : Chunk)
    (hm : c ∈ chunks) (hsh : String) (hsha : c.metadata.sha256 = some hsh)
    (hids : chunks.all (fun c => (c.metadata.id).isSome) = true) :
    (c ∈ newChunksOf (existingHashes db) chunks ↔ hsh ∉ existingHashes db) ∧
    add_to_chroma db chunks =
      (if (newChunksOf (existingHashes db) chunks).isEmpty then some (db, 0)
       else some
         (addDocuments db (newChunksOf (existingHashes db) chunks)
           ((newChunksOf (existingHashes db) chunks).map
             (fun c => (c.metadata.id).getD "")),
          (newChunksOf (existingHashes db) chunks).length)) := by
  constructor
  · rw [newChunksOf, List.mem_filter]
    simp [isNewChunk, hsha, hm]
  · show (if (newChunksOf (existingHashes db) chunks).isEmpty = true then some (db, 0)
        else match (newChunksOf (existingHashes db) chunks).mapM
            (fun c => c.metadata.id) with
          | none => none
          | some new_ids =>
            some (addDocuments db (newChunksOf (existingHashes db) chunks) new_ids,
              (newChunksOf (existingHashes db) chunks).length)) = _
    by_cases hemp : (newChunksOf (existingHashes db) chunks).isEmpty = true
    · rw [if_pos hemp, if_pos hemp]
    · rw [if_neg hemp, if_neg hemp, mapM_id_eq_some]
      intro x hx
      have hx' : x ∈ chunks := (List.mem_filter.mp hx).1
      exact List.all_eq_true.mp hids x hx'

/-- Witness for `C3_hash_dedup_policy`: against a store persisting hash
`hx`, the chunk with fresh hash `hy` is classified new. -/
theorem C3_hash_dedup_witness :
    (c3c2 ∈ newChunksOf (existingHashes c3db) [c3c1, c3c2] ↔
      "hy" ∉ existingHashes c3db) ∧
    add_to_chroma c3db [c3c1, c3c2] =
      (if (newChunksOf (existingHashes c3db) [c3c1, c3c2]).isEmpty then
        some (c3db, 0)
       else some
         (addDocuments c3db (newChunksOf (existingHashes c3db) [c3c1, c3c2])
           ((newChunksOf (existingHashes c3db) [c3c1, c3c2]).map
             (fun c => (c.metadata.id).getD "")),
          (newChunksOf (existingHashes c3db) [c3c1, c3c2]).length)) :=
  C3_hash_dedup_policy c3db [c3c1, c3c2] c3c2 (by decide) "hy" rfl (by decide)

/-- C9: the hash filter of `add_to_chroma` consults only the persisted
hash set, never the hashes of earlier chunks of the same batch: two
distinct chunks with the same absent hash are both classified as new,
wherever they sit in the batch. -/
theorem C9_no_intra_batch_dedup (db : Store) (c1 c2 : Chunk) (hsh : String)
    (pre mid post : List Chunk)
    (h1 : c1.metadata.sha256 = some hsh) (h2 : c2.metadata.sha256 = some hsh)
    (habs : hsh ∉ existingHashes db) :
    newChunksOf (existingHashes db) (pre ++ c1 :: mid ++ c2 :: post) =
      newChunksOf (existingHashes db) pre ++ c1 ::
        (newChunksOf (existingHashes db) mid ++ c2 ::
          newChunksOf (existingHashes db) post) ∧
    c1 ∈ newChunksOf (existingHashes db) (pre ++ c1 :: mid ++ c2 :: post) ∧
    c2 ∈ newChunksOf (existingHashes db) (pre ++ c1 :: mid ++ c2 :: post) := by
  have hnew1 : isNewChunk (existingHashes db) c1 = true := by
    simp [isNewChunk, h1, habs]
  have hnew2 : isNewChunk (existingHashes db) c2 = true := by
    simp [isNewChunk, h2, habs]
  have hsplit : newChunksOf (existingHashes db) (pre ++ c1 :: mid ++ c2 :: post) =
      newChunksOf (existingHashes db) pre ++ c1 ::
        (newChunksOf (existingHashes db) mid ++ c2 ::
          newChunksOf (existingHashes db) post) := by
    simp [newChunksOf, List.filter_append, List.filter_cons, hnew1, hnew2]
  refine ⟨hsplit, ?_, ?_⟩
  · rw [hsplit]; simp
  · rw [hsplit]; simp

/-- Witness for `C9_no_intra_batch_dedup`: two copies of the chunk
content hashing to `hy`, neither persisted, are both kept. -/
theorem C9_witness :
    newChunksOf (existingHashes c3db) ([c3c1] ++ c3c2 :: [] ++ c3c2 :: []) =
      newChunksOf (existingHashes c3db) [c3c1] ++ c3c2 ::
        (newChunksOf (existingHashes c3db) [] ++ c3c2 ::
          newChunksOf (existingHashes c3db) []) ∧
    c3c2 ∈ newChunksOf (existingHashes c3db) ([c3c1] ++ c3c2 :: [] ++ c3c2 :: []) ∧
    c3c2 ∈ newChunksOf (existingHashes c3db) ([c3c1] ++ c3c2 :: [] ++ c3c2 :: []) :=
  C9_no_intra_batch_dedup c3db c3c2 c3c2 "hy" [c3c1] [] [] rfl rfl (by decide)

/-! ### The synchronizer never deletes, but the upsert does overwrite -/

theorem upsertEntry_length (db : Store) (e : StoreEntry) :
    db.length ≤ (upsertEntry db e).length := by
  unfold upsertEntry
  split
  · simp
  · simp

theorem upsertEntry_keeps_ids (db : Store) (e : StoreEntry) :
    ∀ x ∈ db, ∃ y ∈ upsertEntry db e, y.id = x.id := by
  intro x hx
  unfold upsertEntry
  split
  · refine ⟨if x.id = e.id then e else x, List.mem_map.mpr ⟨x, hx, rfl⟩, ?_⟩
    split
    · exact (by assumption : x.id = e.id).symm
    · rfl
  · exact ⟨x, List.mem_append_left _ hx, rfl⟩

theorem upsertFold_keeps_ids :
    ∀ (ps : List (Chunk × String)) (db : Store),
      (∀ x ∈ db, ∃ y ∈ ps.foldl (fun d p => upsertEntry d (entryOfChunk p.2 p.1)) db,
        y.id = x.id) ∧
      db.length ≤ (ps.foldl (fun d p => upsertEntry d (entryOfChunk p.2 p.1)) db).length := by
  intro ps
  induction ps with
  | nil => exact fun db => ⟨fun x hx => ⟨x, hx, rfl⟩, le_refl _⟩
  | cons p rest ih =>
    intro db
    constructor
    · intro x hx
      obtain ⟨y, hy, hyid⟩ := upsertEntry_keeps_ids db (entryOfChunk p.2 p.1) x hx
      obtain ⟨z, hz, hzid⟩ := (ih (upsertEntry db (entryOfChunk p.2 p.1))).1 y hy
      exact ⟨z, by simpa [List.foldl_cons] using hz, by rw [hzid, hyid]⟩
    · calc db.length ≤ (upsertEntry db (entryOfChunk p.2 p.1)).length :=
            upsertEntry_length db (entryOfChunk p.2 p.1)
        _ ≤ _ := by simpa [List.foldl_cons] using
            (ih (upsertEntry db (entryOfChunk p.2 p.1))).2

/-- C5, amended: whenever `add_to_chroma` succeeds, every persisted id is
still present afterwards and the store never shrinks — the synchronizer
deletes nothing.  But (contrary to the claim) a changed chunk that
reuses a persisted id IS overwritten, because the insert is an
upsert-by-id: see the counterexample. -/
theorem C5_no_delete (db : Store) (chunks : List Chunk) (db' : Store) (n : Nat)
    (h : add_to_chroma db chunks = some (db', n)) :
    (∀ e ∈ db, ∃ e' ∈ db', e'.id = e.id) ∧ db.length ≤ db'.length := by
  have h' : (if (newChunksOf (existingHashes db) chunks).isEmpty = true then
        some (db, 0)
      else match (newChunksOf (existingHashes db) chunks).mapM
          (fun c => c.metadata.id) with
        | none => none
        | some new_ids =>
          some (addDocuments db (newChunksOf (existingHashes db) chunks) new_ids,
            (newChunksOf (existingHashes db) chunks).length)) = some (db', n) := h
  split at h'
  · obtain ⟨rfl, rfl⟩ : db = db' ∧ 0 = n := by
      have := Option.some.inj h'
      exact ⟨congrArg Prod.fst this, congrArg Prod.snd this⟩
    exact ⟨fun e he => ⟨e, he, rfl⟩, le_refl _⟩
  · split at h'
    · exact absurd h' (by simp)
    · have hdb' : addDocuments db (newChunksOf (existingHashes db) chunks) _ = db' :=
        congrArg Prod.fst (Option.some.inj h')
      rw [← hdb']
      exact upsertFold_keeps_ids _ db

/-- Witness for `C5_no_delete` at the concrete overwrite scenario. -/
theorem C5_no_delete_witness :
    (∀ e ∈ c5db,
      ∃ e' ∈ [({ id := "u:0:0", page_content := "Y",
                 metadata := { id := some "u:0:0", sha256 := some "hY" } } : StoreEntry)],
        e'.id = e.id) ∧
    c5db.length ≤
      [({ id := "u:0:0", page_content := "Y",
          metadata := { id := some "u:0:0", sha256 := some "hY" } } : StoreEntry)].length :=
  C5_no_delete c5db [c5chunk] _ 1 (by decide)

/-- C5, counterexample: the store `c5db` persists id `u:0:0` with content
`X`; inserting the changed chunk `c5chunk` (same id, content `Y`, fresh
hash) replaces the persisted row — the chunk IS overwritten. -/
theorem C5_counterexample_overwrite :
    add_to_chroma c5db [c5chunk] =
      some ([{ id := "u:0:0", page_content := "Y",
               metadata := { id := some "u:0:0", sha256 := some "hY" } }], 1) ∧
    c5db.map StoreEntry.page_content = ["X"] := by
  constructor
  · decide
  · decide

/-! ### Dedup idempotence of the second ingestion run -/

theorem calcIdsAux_annotated (sha : String → String) :
    ∀ (l : List Chunk) (last : Option String) (idx : Nat),
      ∀ c' ∈ calcIdsAux sha last idx l,
        (c'.metadata.id).isSome = true ∧
        ∃ t, c'.metadata.sha256 = some (sha t) := by
  intro l
  induction l with
  | nil => intro last idx c' hc'; simp [calcIdsAux] at hc'
  | cons c rest ih =>
    intro last idx c' hc'
    simp only [calcIdsAux, List.mem_cons] at hc'
    rcases hc' with rfl | hc'
    · exact ⟨rfl, c.page_content, rfl⟩
    · exact ih _ _ c' hc'

theorem zip_map_self (l : List Chunk) (f : Chunk → String) :
    l.zip (l.map f) = l.map (fun c => (c, f c)) := by
  induction l with
  | nil => rfl
  | cons c cs ih => simp [ih]

theorem addDocuments_fresh :
    ∀ (chunks : List Chunk) (ids : List String) (db : Store),
      chunks.length = ids.length → ids.Nodup →
      (∀ i ∈ ids, ∀ x ∈ db, x.id ≠ i) →
      addDocuments db chunks ids =
        db ++ (chunks.zip ids).map (fun p => entryOfChunk p.2 p.1) := by
  intro chunks
  induction chunks with
  | nil =>
    intro ids db hlen _ _
    have : ids = [] := List.length_eq_zero.mp (by simpa using hlen.symm)
    subst this
    simp [addDocuments]
  | cons c cs ih =>
    intro ids db hlen hnodup hfresh
    match ids with
    | i :: is =>
      have hstep : addDocuments db (c :: cs) (i :: is) =
          addDocuments (upsertEntry db (entryOfChunk i c)) cs is := rfl
      have hupsert : upsertEntry db (entryOfChunk i c) = db ++ [entryOfChunk i c] := by
        unfold upsertEntry
        rw [if_neg]
        simp only [List.any_eq_true, not_exists, not_and, Bool.not_eq_true]
        intro x hx
        have := hfresh i (List.mem_cons_self _ _) x hx
        simpa [entryOfChunk] using this
      rw [List.nodup_cons] at hnodup
      rw [hstep, hupsert, ih is (db ++ [entryOfChunk i c]) (by simpa using hlen)
        hnodup.2 ?_]
      · simp [zip_map_self, entryOfChunk]
      · intro i' hi' x hx
        rcases List.mem_append.mp hx with hx | hx
        · exact hfresh i' (List.mem_cons_of_mem _ hi') x hx
        · have : x = entryOfChunk i c := by simpa using hx
          subst this
          show i ≠ i'
          exact fun h => hnodup.1 (h ▸ hi')

theorem C4_second_run_noop (sha : String → String) (hsha : ∀ s, sha s ≠ "")
    (cs : List Chunk) (db db1 : Store) (n : Nat)
    (hnodup : ((calculate_chunk_ids sha cs).map
      (fun c => (c.metadata.id).getD "")).Nodup)
    (hfresh : ∀ e ∈ db, ∀ c ∈ calculate_chunk_ids sha cs,
      e.id ≠ (c.metadata.id).getD "")
    (hrun1 : add_to_chroma db (calculate_chunk_ids sha cs) = some (db1, n)) :
    add_to_chroma db1 (calculate_chunk_ids sha cs) = some (db1, 0) := by
  set chunks := calculate_chunk_ids sha cs with hchunks
  have hann : ∀ c ∈ chunks, (c.metadata.id).isSome = true ∧
      ∃ t, c.metadata.sha256 = some (sha t) :=
    fun c hc => calcIdsAux_annotated sha cs none 0 c hc
  -- Every chunk's hash ends up in the hash set of `db1`.
  have hcov : ∀ c ∈ chunks, ∃ hsh, c.metadata.sha256 = some hsh ∧
      hsh ∈ existingHashes db1 := by
    have h1 : (if (newChunksOf (existingHashes db) chunks).isEmpty = true then
          some (db, 0)
        else match (newChunksOf (existingHashes db) chunks).mapM
            (fun c => c.metadata.id) with
          | none => none
          | some new_ids =>
            some (addDocuments db (newChunksOf (existingHashes db) chunks) new_ids,
              (newChunksOf (existingHashes db) chunks).length)) = some (db1, n) := hrun1
    split at h1
    · -- no new chunks: db1 = db and every hash was already persisted
      have hdb : db = db1 := congrArg Prod.fst (Option.some.inj h1)
      have hempty : newChunksOf (existingHashes db) chunks = [] :=
        List.isEmpty_iff.mp (by assumption)
      intro c hc
      obtain ⟨-, t, hsh_eq⟩ := hann c hc
      have hold : isNewChunk (existingHashes db) c = false := by
        have := List.filter_eq_nil_iff.mp hempty c hc
        simpa [newChunksOf] using this
      refine ⟨sha t, hsh_eq, ?_⟩
      rw [← hdb]
      have : (existingHashes db).contains (sha t) = true := by
        simpa [isNewChunk, hsh_eq] using hold
      simpa using this
    · -- new chunks were appended with fresh, pairwise-distinct ids
      rw [mapM_id_eq_some (newChunksOf (existingHashes db) chunks)
        (fun x hx => (hann x (List.mem_filter.mp hx).1).1)] at h1
      have hdb1 : addDocuments db (newChunksOf (existingHashes db) chunks)
          ((newChunksOf (existingHashes db) chunks).map
            (fun c => (c.metadata.id).getD "")) = db1 :=
        congrArg Prod.fst (Option.some.inj h1)
      have hsub : List.Sublist (newChunksOf (existingHashes db) chunks) chunks :=
        List.filter_sublist _
      have hnodup' : ((newChunksOf (existingHashes db) chunks).map
          (fun c => (c.metadata.id).getD "")).Nodup :=
        hnodup.sublist (hsub.map _)
      have hfresh' : ∀ i ∈ (newChunksOf (existingHashes db) chunks).map
          (fun c => (c.metadata.id).getD ""), ∀ x ∈ db, x.id ≠ i := by
        intro i hi x hx
        obtain ⟨c, hc, rfl⟩ := List.mem_map.mp hi
        exact hfresh x hx c (hsub.subset hc)
      rw [addDocuments_fresh _ _ db (by simp) hnodup' hfresh'] at hdb1
      intro c hc
      obtain ⟨-, t, hsh_eq⟩ := hann c hc
      refine ⟨sha t, hsh_eq, ?_⟩
      rw [← hdb1, existingHashes, List.filterMap_append]
      rw [List.mem_append]
      by_cases hnew : isNewChunk (existingHashes db) c = true
      · right
        rw [zip_map_self, List.map_map]
        apply List.mem_filterMap.mpr
        refine ⟨entryOfChunk ((c.metadata.id).getD "") c, ?_, ?_⟩
        · exact List.mem_map.mpr ⟨c, List.mem_filter.mpr ⟨hc, hnew⟩, rfl⟩
        · simp [entryOfChunk, hsh_eq, hsha t]
      · left
        have : (existingHashes db).contains (sha t) = true := by
          simpa [isNewChunk, hsh_eq] using (Bool.not_eq_true _).mp hnew
        simpa [existingHashes] using this
  -- Hence the second run's new subset is empty and the run is a no-op.
  have hnil : newChunksOf (existingHashes db1) chunks = [] := by
    apply List.filter_eq_nil_iff.mpr
    intro c hc
    obtain ⟨hsh, hsh_eq, hmem⟩ := hcov c hc
    simp [isNewChunk, hsh_eq, hmem]
  show (if (newChunksOf (existingHashes db1) chunks).isEmpty = true then
      some (db1, 0)
    else match (newChunksOf (existingHashes db1) chunks).mapM
        (fun c => c.metadata.id) with
      | none => none
      | some new_ids =>
        some (addDocuments db1 (newChunksOf (existingHashes db1) chunks) new_ids,
          (newChunksOf (existingHashes db1) chunks).length)) = some (db1, 0)
  rw [hnil]
  rfl

/-- Witness for `C4_second_run_noop`: first ingestion of `threeChunks`
into an empty store inserts 3 chunks; the second run inserts 0 and
leaves the store unchanged. -/
theorem C4_second_run_noop_witness :
    add_to_chroma [] (calculate_chunk_ids shaW threeChunks) = some (c4db1, 3) ∧
    add_to_chroma c4db1 (calculate_chunk_ids shaW threeChunks) = some (c4db1, 0) := by
  refine ⟨by decide, C4_second_run_noop shaW ?_ threeChunks [] c4db1 3
    (by decide) (by simp) (by decide)⟩
  intro s h
  have hdata : 'h' :: s.data = ([] : List Char) := congrArg String.data h
  exact absurd hdata (by simp)

/-- C4, counterexample: re-ingesting the edited document `c4cexDocPair`
(content `X` moved from position 1 to position 0, new content `Y` at
position 1) into `c4cexDb` twice with unchanged content: the first run
upserts id `a.pdf:0:1`, destroying the only persisted row carrying hash
`hX`; the second run therefore classifies the `X`-chunk as new again and
inserts 1 chunk, not 0. -/
theorem C4_counterexample_stale_hash_lost :
    add_to_chroma c4cexDb (calculate_chunk_ids shaW c4cexDocPair) =
      some (c4cexDb1, 1) ∧
    (add_to_chroma c4cexDb1 (calculate_chunk_ids shaW c4cexDocPair)).map
      Prod.snd = some 1 := by
  constructor
  · decide
  · decide

/-! ### The websites file -/

/-- C6: `read_websites` on an existing file keeps exactly the lines whose
stripped form is non-empty and which do not start with `#`, stripped, in
file order (the result is a sublist of the stripped line sequence); e.g.
blank, whitespace-only and `#`-comment lines are dropped and surrounding
whitespace is removed. -/
theorem C6_read_websites_filter (ls : List String) :
    (∀ u ∈ read_websites (some ls), ∃ line ∈ ls,
        u = pyStrip line ∧ beginsWithHash line = false ∧ (pyStrip line).data ≠ []) ∧
    (∀ line ∈ ls, beginsWithHash line = false → (pyStrip line).data ≠ [] →
        pyStrip line ∈ read_websites (some ls)) ∧
    List.Sublist (read_websites (some ls)) (ls.map pyStrip) ∧
    read_websites (some ["http://a", "", "# note", "   ", "  http://b  "]) =
      ["http://a", "http://b"] := by
  refine ⟨?_, ?_, ?_, by decide⟩
  · intro u hu
    obtain ⟨line, hline, rfl⟩ := List.mem_map.mp hu
    have hq := (List.mem_filter.mp hline).2
    simp only [Bool.and_eq_true, Bool.not_eq_true'] at hq
    refine ⟨line, (List.mem_filter.mp hline).1, rfl, hq.2, ?_⟩
    simpa [List.isEmpty_iff] using hq.1
  · intro line hline hhash hne
    apply List.mem_map.mpr
    refine ⟨line, List.mem_filter.mpr ⟨hline, ?_⟩, rfl⟩
    simp only [Bool.and_eq_true, Bool.not_eq_true']
    exact ⟨by simpa [List.isEmpty_iff] using hne, hhash⟩
  · exact (List.filter_sublist ls).map pyStrip

/-! ### Scrape-failure isolation -/

/-- C7: a URL whose fetch/parse raises is converted by `scrape_website`
to `("", url)` — nothing propagates past that boundary — and
`build_web_documents` drops it while processing the rest of the batch:
the failed URL contributes no document, and every produced document
comes from a URL whose fetch succeeded with non-empty text. -/
theorem C7_scrape_failure_isolated
    (fetch : String → Except String (String × String)) (u e : String)
    (pre post : List String) (herr : fetch u = Except.error e) :
    scrape_website fetch u = ("", u) ∧
    build_web_documents fetch (pre ++ u :: post) =
      build_web_documents fetch pre ++ build_web_documents fetch post ∧
    ∀ d ∈ build_web_documents fetch (pre ++ u :: post),
      d.page_content ≠ "" ∧ ∃ v t, v ∈ pre ++ post ∧
        fetch v = Except.ok (d.page_content, t) ∧ d.metadata.source = some v := by
  have hscrape : scrape_website fetch u = ("", u) := by
    unfold scrape_website
    rw [herr]
  have hmem : ∀ (l : List String), ∀ d ∈ build_web_documents fetch l,
      d.page_content ≠ "" ∧ ∃ v t, v ∈ l ∧
        fetch v = Except.ok (d.page_content, t) ∧ d.metadata.source = some v := by
    intro l d hd
    obtain ⟨v, hv, hfd⟩ := List.mem_filterMap.mp hd
    by_cases hempty : (scrape_website fetch v).1 = ""
    · rw [if_pos hempty] at hfd
      cases hfd
    · rw [if_neg hempty] at hfd
      obtain rfl := Option.some.inj hfd
      refine ⟨hempty, v, (scrape_website fetch v).2, hv, ?_, rfl⟩
      rcases hfetch : fetch v with err | ok
      · exact absurd (by simp [scrape_website, hfetch]) hempty
      · simp [scrape_website, hfetch]
  have hsplit : build_web_documents fetch (pre ++ u :: post) =
      build_web_documents fetch pre ++ build_web_documents fetch post := by
    unfold build_web_documents
    rw [List.filterMap_append, List.filterMap_cons]
    simp [hscrape]
  refine ⟨hscrape, hsplit, ?_⟩
  intro d hd
  obtain ⟨hne, v, t, hv, hok, hsrc⟩ := hmem (pre ++ u :: post) d hd
  refine ⟨hne, v, t, ?_, hok, hsrc⟩
  rcases List.mem_append.mp hv with hv | hv
  · exact List.mem_append_left _ hv
  · rcases List.mem_cons.mp hv with rfl | hv
    · rw [herr] at hok
      cases hok
    · exact List.mem_append_right _ hv

/-- Witness for `C7_scrape_failure_isolated`: batch `[good1, bad,
good2]` where `bad` raises. -/
theorem C7_witness :
    scrape_website fetchW "bad" = ("", "bad") ∧
    build_web_documents fetchW (["good1"] ++ "bad" :: ["good2"]) =
      build_web_documents fetchW ["good1"] ++ build_web_documents fetchW ["good2"] ∧
    ∀ d ∈ build_web_documents fetchW (["good1"] ++ "bad" :: ["good2"]),
      d.page_content ≠ "" ∧ ∃ v t, v ∈ ["good1"] ++ ["good2"] ∧
        fetchW v = Except.ok (d.page_content, t) ∧ d.metadata.source = some v :=
  C7_scrape_failure_isolated fetchW "bad" "boom" ["good1"] ["good2"] rfl

/-! ### Missing websites file -/

/-- C10: when the websites file path does not exist, `read_websites`
returns `[]` (it checks `os.path.exists` first) rather than raising, and
ingestion proceeds on the PDF documents alone: the gathered document
list is exactly `pdf_docs`, and `ingest` runs the normal pipeline on
it. -/
theorem C10_missing_websites_file (pdf_docs : List Document)
    (fetch : String → Except String (String × String)) :
    read_websites none = [] ∧
    ingestDocs pdf_docs fetch none = pdf_docs ∧
    ∀ (splitter : List Document → List Chunk) (sha : String → String) (db : Store),
      ingest splitter sha fetch db pdf_docs none =
        (if pdf_docs.isEmpty then some (db, 0)
         else add_to_chroma db (calculate_chunk_ids sha (splitter pdf_docs))) := by
  have hdocs : ingestDocs pdf_docs fetch none = pdf_docs := by
    simp [ingestDocs, read_websites]
  refine ⟨rfl, hdocs, ?_⟩
  intro splitter sha db
  show (if (ingestDocs pdf_docs fetch none).isEmpty = true then some (db, 0)
    else add_to_chroma db
      (calculate_chunk_ids sha (splitter (ingestDocs pdf_docs fetch none)))) = _
  rw [hdocs]

/-! ### Answer assembly -/

/-- C8: `query_rag` joins the retrieved chunk contents with the
`\n\n---\n\n` separator, renders the fixed prompt template over the
context and the question, invokes the model on it, and returns the
answer together with one source entry per retrieved chunk — the
basename of each chunk's `source` metadata, in retrieval order, without
deduplication (two chunks of `docs/a.pdf` yield `a.pdf` twice). -/
theorem C8_answer_assembly {σ : Type} (model : String → String)
    (results : List (Chunk × σ)) (q : String) :
    query_rag model results q =
      (model (promptTemplateFormat
        (String.intercalate "\n\n---\n\n"
          (results.map (fun r => r.1.page_content))) q),
       results.map (fun r => basename ((r.1.metadata.source).getD ""))) ∧
    (query_rag model results q).2.length = results.length ∧
    (query_rag (fun p => p)
      [({ page_content := "c1", metadata := { source := some "docs/a.pdf" } }, (0 : Nat)),
       ({ page_content := "c2", metadata := { source := some "docs/a.pdf" } }, (0 : Nat))]
      "q").2 = ["a.pdf", "a.pdf"] := by
  refine ⟨rfl, ?_, by decide⟩
  simp [query_rag]

end Gov
